import Mathlib

/-!
Verification of the comment-to-location mapping and annotation engine of the
appeals-decision-assistant repository (src/ada/comment_helper.py, duplicated in
src/ada/main.py).  Text is modelled as `List Char` (the repository processes
ASCII review text); the Python regular-expression searches, string splitting
and stripping are embedded as executable Lean functions with the same
semantics on that fragment.  The PDF and word-processor document libraries
(Spire.Pdf, python-docx) are external collaborators: pages and paragraphs are
modelled abstractly, with the library text finder as an uninterpreted function
field configured by the find parameter the code passes.
-/

/-- Python whitespace class `\s` on ASCII: space, tab, newline, carriage
return, vertical tab, form feed. -/
def pySpace (c : Char) : Bool :=
  c = ' ' || c = '\t' || c = '\n' || c = '\r' || c = '\x0b' || c = '\x0c'

/-- Python `str.strip()` on ASCII text: drop leading and trailing whitespace. -/
def pyStrip (l : List Char) : List Char :=
  ((l.dropWhile pySpace).reverse.dropWhile pySpace).reverse

/-- Python `text.split("\n")`: split on every newline, keeping empty pieces;
the empty text yields one empty piece. -/
def splitOnNl : List Char → List (List Char)
  | [] => [[]]
  | '\n' :: rest => [] :: splitOnNl rest
  | c :: rest =>
    match splitOnNl rest with
    | [] => [[c]]
    | l :: ls => (c :: l) :: ls

/-- Python `int(...)` on a non-empty string of ASCII digits. -/
def natOfDigits (ds : List Char) : Nat :=
  ds.foldl (fun a c => a * 10 + (c.toNat - 48)) 0

/-- Match the regex piece `[Ll]ines?` at the head of the text; on success
return the remaining text (the optional `s` is consumed greedily, which agrees
with full backtracking semantics because the following `\s+` can never match
the letter `s`). -/
def matchLineWord : List Char → Option (List Char)
  | c :: 'i' :: 'n' :: 'e' :: rest =>
    if c = 'L' || c = 'l' then
      match rest with
      | 's' :: r => some r
      | r => some r
    else none
  | _ => none

/-- Match the regex piece `\s+(\d+)` at the head of the text; on success
return the captured number and the remaining text (both repetitions are
greedy, which agrees with backtracking semantics because whitespace, digits
and the following context classes are disjoint). -/
def matchSpacesNum (l : List Char) : Option (Nat × List Char) :=
  let s := l.span pySpace
  if s.1.isEmpty then none
  else
    let d := s.2.span Char.isDigit
    if d.1.isEmpty then none else some (natOfDigits d.1, d.2)

/-- Match the regex `[Ll]ines?\s+(\d+)-(\d+)` at the head of the text,
returning both captured numbers and the remaining text. -/
def matchRangeAt (l : List Char) : Option (Nat × Nat × List Char) :=
  match matchLineWord l with
  | none => none
  | some r =>
    match matchSpacesNum r with
    | none => none
    | some (a, r2) =>
      match r2 with
      | '-' :: r3 =>
        let d := r3.span Char.isDigit
        if d.1.isEmpty then none else some (a, natOfDigits d.1, d.2)
      | _ => none

/-- Match the regex `[Ll]ines?\s+(\d+)` at the head of the text, returning
the captured number and the remaining text. -/
def matchSingleAt (l : List Char) : Option (Nat × List Char) :=
  (matchLineWord l).bind matchSpacesNum

/-- Python `re.finditer` with the range pattern `[Ll]ines?\s+(\d+)-(\d+)`:
leftmost non-overlapping matches, resuming after each match.  The fuel
argument bounds the number of scanning steps; every step consumes at least
one character, so fuel equal to the text length always suffices. -/
def finditerRange : Nat → List Char → List (Nat × Nat)
  | 0, _ => []
  | _, [] => []
  | fuel + 1, l =>
    match matchRangeAt l with
    | some (a, b, r) => (a, b) :: finditerRange fuel r
    | none => finditerRange fuel l.tail

/-- Python `re.finditer` with the single pattern `[Ll]ines?\s+(\d+)`. -/
def finditerSingle : Nat → List Char → List Nat
  | 0, _ => []
  | _, [] => []
  | fuel + 1, l =>
    match matchSingleAt l with
    | some (n, r) => n :: finditerSingle fuel r
    | none => finditerSingle fuel l.tail

/-- Python `range(a, b + 1)`: the integers from `a` to `b` inclusive, empty
when the range is reversed. -/
def pyRange (a b : Nat) : List Nat := List.range' a (b + 1 - a)

/-- Insert a number into a strictly sorted list, keeping it strictly
sorted (duplicates are dropped). -/
def insertSorted (n : Nat) : List Nat → List Nat
  | [] => [n]
  | m :: rest =>
    if n < m then n :: m :: rest
    else if n = m then m :: rest
    else m :: insertSorted n rest

/-- Python `sorted(set(l))`: the distinct elements of `l` in strictly
increasing order. -/
def sortedSet (l : List Nat) : List Nat :=
  l.foldl (fun acc n => insertSorted n acc) []

/-- `CommentHelper.extract_line_numbers` on ASCII text: run the range pattern
over the whole text, expanding each match `a-b` inclusively with
`range(a, b + 1)`, then the single pattern over the whole text, and return
`sorted(set(...))` of everything collected. -/
def extractLineNumbersL (text : List Char) : List Nat :=
  let collected :=
    ((finditerRange text.length text).map (fun p => pyRange p.1 p.2)).flatten
      ++ finditerSingle text.length text
  sortedSet collected

/-- `CommentHelper.extract_line_numbers`, entry point on strings. -/
def extract_line_numbers (s : String) : List Nat :=
  extractLineNumbersL s.data

/-- Does a stripped line start a new comment section?  Python:
`line and (line[0].isdigit() or line.startswith("Location:"))`. -/
def isQualifying : List Char → Bool
  | [] => false
  | c :: cs => c.isDigit || List.isPrefixOf "Location:".data (c :: cs)

/-- The loop body of `CommentHelper._parse_comment_sections`: walk the raw
lines, stripping each; a qualifying line flushes the current section and
starts a new one; other lines are appended to the current section when one is
open and discarded otherwise; the final open section is flushed. -/
def sectionsAux : List (List Char) → List (List Char) → List (List (List Char))
  | [], current => if current.isEmpty then [] else [current]
  | raw :: rest, current =>
    let l := pyStrip raw
    if isQualifying l then
      if current.isEmpty then sectionsAux rest [l]
      else current :: sectionsAux rest [l]
    else
      if current.isEmpty then sectionsAux rest []
      else sectionsAux rest (current ++ [l])

/-- `CommentHelper._parse_comment_sections`, kept at the granularity of the
lines of each section (the Python code joins each section with newlines; the
joined form is recovered by `joinLines`). -/
def parseSectionsLines (text : List Char) : List (List (List Char)) :=
  sectionsAux (splitOnNl text) []

/-- Python `"\n".join(section)`. -/
def joinLines (ls : List (List Char)) : List Char :=
  List.intercalate [ '\n' ] ls

/-- `CommentHelper._parse_comment_sections`: the comment sections of a block
of review text, each a newline-joined string of its stripped lines. -/
def parse_comment_sections (text : List Char) : List (List Char) :=
  (parseSectionsLines text).map joinLines

/-- The find parameter of the Spire text finder; the code always passes
`TextFindParameter.IgnoreCase`, requesting a case-insensitive search. -/
inductive TextFindParam where
  | Default
  | IgnoreCase
deriving DecidableEq, Repr

/-- A located occurrence of a search string on a page, exposing its
rectangular bounding regions (regions are abstract identifiers). -/
structure TextFragment where
  Bounds : List Nat
deriving DecidableEq, Repr

/-- A PDF page as the code observes it: the text the extraction collaborator
returns for it, and the library text finder bound to it (an uninterpreted
function of the find parameter and the query string). -/
structure PdfPage where
  extractedText : List Char
  find : TextFindParam → List Char → List TextFragment

/-- The markup kind the code sets on every highlight it creates. -/
inductive MarkupKind where
  | Highlight
deriving DecidableEq, Repr

/-- The markup colour the code sets on every highlight it creates. -/
inductive PdfColor where
  | Yellow
deriving DecidableEq, Repr

/-- One text-markup shape added to a PDF page. -/
structure MarkupAnnot where
  author : List Char
  text : List Char
  rect : Nat
  kind : MarkupKind
  color : PdfColor
deriving DecidableEq, Repr

/-- The extracted-text index: the extracted text of each page followed by a
newline, concatenated, then split on newlines. -/
def buildTextLines (pages : List PdfPage) : List (List Char) :=
  splitOnNl ((pages.map (fun p => p.extractedText ++ [ '\n' ])).flatten)

/-- Python `comment[:500] if len(comment) > 500 else comment`. -/
def truncate500 (c : List Char) : List Char :=
  if 500 < c.length then c.take 500 else c

/-- The in-bounds target lines of a record: for each referenced line number
within `1..len(text_lines)`, the corresponding 1-indexed extracted line. -/
def targetLinesOf (textLines : List (List Char)) (nums : List Nat) :
    List (List Char) :=
  nums.filterMap fun n =>
    if 1 ≤ n ∧ n ≤ textLines.length then some (textLines.getD (n - 1) [])
    else none

/-- The usable search text of a comment record, when it has one: the first
in-bounds target line, stripped, provided the record has line numbers, some
line is in bounds, and the stripped line is non-empty and at least 3
characters long. -/
def searchTextOf (textLines : List (List Char)) (comment : List Char) :
    Option (List Char) :=
  let nums := extractLineNumbersL comment
  if nums.isEmpty then none
  else
    match targetLinesOf textLines nums with
    | [] => none
    | t :: _ =>
      let s := pyStrip t
      if s.isEmpty ∨ s.length < 3 then none else some s

/-- Scan pages from index `idx` upward with a case-insensitive search; return
the first page index with at least one match, paired with the first match
fragment on that page. -/
def findPageAux (s : List Char) (idx : Nat) :
    List PdfPage → Option (Nat × TextFragment)
  | [] => none
  | p :: rest =>
    match p.find TextFindParam.IgnoreCase s with
    | [] => findPageAux s (idx + 1) rest
    | f :: _ => some (idx, f)

/-- Scan all pages in ascending order starting at the first page. -/
def findPage (pages : List PdfPage) (s : List Char) :
    Option (Nat × TextFragment) :=
  findPageAux s 0 pages

/-- One highlight shape per bounding region of the fragment, every shape
carrying the truncated comment body, the fixed author tag `ADA`, highlight
kind and yellow colour. -/
def mkHighlights (comment : List Char) (frag : TextFragment) :
    List MarkupAnnot :=
  frag.Bounds.map fun r =>
    { author := "ADA".data
      text := truncate500 comment
      rect := r
      kind := MarkupKind.Highlight
      color := PdfColor.Yellow }

/-- Processing of one comment record in the PDF path: `none` when the record
is skipped, otherwise the winning page index and the highlight shapes added
there (one counter increment per `some`). -/
def processCommentPdf (textLines : List (List Char)) (pages : List PdfPage)
    (comment : List Char) : Option (Nat × List MarkupAnnot) :=
  match searchTextOf textLines comment with
  | none => none
  | some s =>
    match findPage pages s with
    | none => none
    | some (i, frag) => some (i, mkHighlights comment frag)

/-- The record loop of `add_comments_to_pdf`: each placed record contributes
its page and shapes, skipped records contribute nothing. -/
def pdfGo (textLines : List (List Char)) (pages : List PdfPage) :
    List (List Char) → List (Nat × List MarkupAnnot)
  | [] => []
  | c :: rest =>
    match processCommentPdf textLines pages c with
    | none => pdfGo textLines pages rest
    | some r => r :: pdfGo textLines pages rest

/-- `add_comments_to_pdf` from the section list on: only the first 50
sections are processed; the second component is `annotations_added`. -/
def pdfProcess (pages : List PdfPage) (sections : List (List Char)) :
    List (Nat × List MarkupAnnot) × Nat :=
  let results := pdfGo (buildTextLines pages) pages (sections.take 50)
  (results, results.length)

/-- `CommentHelper.add_comments_to_pdf`: parse the comment block, then place
the first 50 sections. -/
def add_comments_to_pdf (pages : List PdfPage) (commentsText : List Char) :
    List (Nat × List MarkupAnnot) × Nat :=
  pdfProcess pages (parse_comment_sections commentsText)

/-- A formatted run of a word-processor paragraph (abstract identifier). -/
abbrev Run := Nat

/-- A word-processor paragraph as the code observes it: its runs. -/
structure Paragraph where
  runs : List Run
deriving DecidableEq, Repr

/-- One comment added to a word-processor document, anchored to the runs of
one paragraph. -/
structure DocxComment where
  runs : List Run
  text : List Char
  author : List Char
  initials : List Char
deriving DecidableEq, Repr

/-- The line-number loop of `add_comments_to_docx`: for each referenced line
number in order, treat it minus one as a zero-based paragraph index (in
integer arithmetic, so line number 0 is out of bounds); the first in-bounds
index whose paragraph has at least one run wins and the scan stops there. -/
def firstUsablePara (paras : List Paragraph) :
    List Nat → Option (Nat × Paragraph)
  | [] => none
  | n :: rest =>
    let pIdx : Int := (n : Int) - 1
    if 0 ≤ pIdx ∧ pIdx < (paras.length : Int) then
      let para := paras.getD pIdx.toNat ⟨[]⟩
      if para.runs.isEmpty then firstUsablePara paras rest
      else some (pIdx.toNat, para)
    else firstUsablePara paras rest

/-- Processing of one comment record in the word-processor path: `none` when
the record is skipped, otherwise the anchor paragraph index and the comment
added (truncated body, author tag and initials `ADA`, anchored to that
runs of that paragraph). -/
def processCommentDocx (paras : List Paragraph) (comment : List Char) :
    Option (Nat × DocxComment) :=
  let nums := extractLineNumbersL comment
  if nums.isEmpty then none
  else
    match firstUsablePara paras nums with
    | none => none
    | some (i, para) =>
      some (i, { runs := para.runs
                 text := truncate500 comment
                 author := "ADA".data
                 initials := "ADA".data })

/-- The record loop of `add_comments_to_docx`. -/
def docxGo (paras : List Paragraph) :
    List (List Char) → List (Nat × DocxComment)
  | [] => []
  | c :: rest =>
    match processCommentDocx paras c with
    | none => docxGo paras rest
    | some r => r :: docxGo paras rest

/-- `add_comments_to_docx` from the section list on: only the first 50
sections are processed; the second component is `comments_added`. -/
def docxProcess (paras : List Paragraph) (sections : List (List Char)) :
    List (Nat × DocxComment) × Nat :=
  let results := docxGo paras (sections.take 50)
  (results, results.length)

/-- `CommentHelper.add_comments_to_docx`: parse the comment block, then place
the first 50 sections. -/
def add_comments_to_docx (paras : List Paragraph) (commentsText : List Char) :
    List (Nat × DocxComment) × Nat :=
  docxProcess paras (parse_comment_sections commentsText)

/-- The loop test of `add_comments_to_docx` for one line number: the
zero-based index is in bounds and the paragraph there has at least one run. -/
def usablePara (paras : List Paragraph) (n : Nat) : Bool :=
  decide (0 ≤ (n : Int) - 1 ∧ (n : Int) - 1 < (paras.length : Int))
    && !(paras.getD ((n : Int) - 1).toNat ⟨[]⟩).runs.isEmpty

/-- A concrete page whose finder never matches (used to exercise the page
scan order). -/
def wPage0 : PdfPage :=
  { extractedText := "hello world".data, find := fun _ _ => [] }

/-- A concrete page whose finder returns one fragment with two bounding
regions for every query. -/
def wPage1 : PdfPage :=
  { extractedText := [], find := fun _ _ => [{ Bounds := [3, 4] }] }

/-- A concrete two-page document: no match on the first page, a match on the
second. -/
def wPages : List PdfPage := [wPage0, wPage1]

/-- A concrete comment record referencing extracted line 1. -/
def wComment : List Char := "1. see line 1".data

/-- The search text the concrete record resolves to. -/
def wSearch : List Char := "hello world".data

/-- A concrete comment record with no recognised line reference. -/
def wSkip : List Char := "1. nothing to report".data

/-- A concrete comment record referencing line 5. -/
def wLoc5 : List Char := "Location: line 5 needs a shorter sentence".data

/-- A concrete ten-paragraph document, every paragraph with one run. -/
def wParas10 : List Paragraph := List.replicate 10 { runs := [0] }

/-! Helper lemmas. -/

/-- Membership in `insertSorted`. -/
theorem mem_insertSorted {x n : Nat} : ∀ {l : List Nat},
    x ∈ insertSorted n l ↔ x = n ∨ x ∈ l := by
  intro l
  induction l with
  | nil => simp [insertSorted]
  | cons m rest ih =>
    by_cases h1 : n < m
    · simp only [insertSorted, if_pos h1, List.mem_cons]
    · by_cases h2 : n = m
      · subst h2
        simp only [insertSorted, if_neg h1, List.mem_cons]
        simp
      · simp only [insertSorted, if_neg h1, if_neg h2, List.mem_cons, ih]
        tauto

/-- `insertSorted` preserves strict sortedness. -/
theorem insertSorted_sorted {n : Nat} : ∀ {l : List Nat},
    l.Sorted (· < ·) → (insertSorted n l).Sorted (· < ·) := by
  intro l
  induction l with
  | nil => intro _; simp [insertSorted]
  | cons m rest ih =>
    intro h
    rw [List.sorted_cons] at h
    obtain ⟨hm, hrest⟩ := h
    simp only [insertSorted]
    by_cases h1 : n < m
    · rw [if_pos h1]
      refine List.sorted_cons.mpr ⟨?_, List.sorted_cons.mpr ⟨hm, hrest⟩⟩
      intro b hb
      rcases List.mem_cons.mp hb with rfl | hbr
      · exact h1
      · exact Nat.lt_trans h1 (hm b hbr)
    · by_cases h2 : n = m
      · rw [if_neg h1, if_pos h2]
        exact List.sorted_cons.mpr ⟨hm, hrest⟩
      · have hmn : m < n := by omega
        rw [if_neg h1, if_neg h2]
        refine List.sorted_cons.mpr ⟨?_, ih hrest⟩
        intro b hb
        rcases mem_insertSorted.mp hb with rfl | hbr
        · exact hmn
        · exact hm b hbr

/-- `sortedSet` always produces a strictly sorted list. -/
theorem sortedSet_sorted (l : List Nat) : (sortedSet l).Sorted (· < ·) := by
  have main : ∀ (l : List Nat) (acc : List Nat), acc.Sorted (· < ·) →
      (l.foldl (fun acc n => insertSorted n acc) acc).Sorted (· < ·) := by
    intro l
    induction l with
    | nil => intro acc h; simpa using h
    | cons n rest ih =>
      intro acc h
      simpa [List.foldl_cons] using ih _ (insertSorted_sorted h)
  simpa [sortedSet] using main l [] (by simp)

/-- The extraction output is strictly sorted. -/
theorem extractLineNumbersL_sorted (t : List Char) :
    (extractLineNumbersL t).Sorted (· < ·) :=
  sortedSet_sorted _

/-- Lengths of parsed section lists: one section per qualifying stripped line,
plus one for a non-empty open section. -/
theorem sectionsAux_length : ∀ (lines : List (List Char)) (current : List (List Char)),
    (sectionsAux lines current).length
      = lines.countP (fun raw => isQualifying (pyStrip raw))
        + (if current.isEmpty then 0 else 1) := by
  intro lines
  induction lines with
  | nil => intro current; cases current <;> simp [sectionsAux]
  | cons raw rest ih =>
    intro current
    by_cases hq : isQualifying (pyStrip raw) = true
    · cases current with
      | nil => simp [sectionsAux, hq, ih, List.countP_cons]
      | cons c cs => simp [sectionsAux, hq, ih, List.countP_cons]
    · cases current with
      | nil => simp [sectionsAux, hq, ih, List.countP_cons]
      | cons c cs => simp [sectionsAux, hq, ih, List.countP_cons]

theorem sectionsAux_shape : ∀ (lines current : List (List Char)),
    (current = [] ∨ ∃ q t, current = q :: t ∧ isQualifying q = true ∧
      ∀ l ∈ t, isQualifying l = false) →
    ∀ sec ∈ sectionsAux lines current,
      ∃ q t, sec = q :: t ∧ isQualifying q = true ∧
        ∀ l ∈ t, isQualifying l = false := by
  intro lines
  induction lines with
  | nil =>
    intro current hcur sec hsec
    cases current with
    | nil => simp [sectionsAux] at hsec
    | cons c cs =>
      simp [sectionsAux] at hsec
      subst hsec
      rcases hcur with h | h
      · exact absurd h (by simp)
      · exact h
  | cons raw rest ih =>
    intro current hcur sec hsec
    by_cases hq : isQualifying (pyStrip raw) = true
    · cases current with
      | nil =>
        simp only [sectionsAux, hq, if_pos, List.isEmpty_nil, if_true] at hsec
        exact ih [pyStrip raw] (Or.inr ⟨pyStrip raw, [], rfl, hq, by simp⟩) sec (by simpa using hsec)
      | cons c cs =>
        simp only [sectionsAux, hq, if_pos, List.isEmpty_cons, if_false] at hsec
        rcases List.mem_cons.mp (by simpa using hsec) with rfl | hmem
        · rcases hcur with h | h
          · exact absurd h (by simp)
          · exact h
        · exact ih [pyStrip raw] (Or.inr ⟨pyStrip raw, [], rfl, hq, by simp⟩) sec hmem
    · cases current with
      | nil =>
        simp only [sectionsAux, List.isEmpty_nil] at hsec
        rw [if_neg (by simpa using hq)] at hsec
        exact ih [] (Or.inl rfl) sec (by simpa using hsec)
      | cons c cs =>
        simp only [sectionsAux, List.isEmpty_cons] at hsec
        rw [if_neg (by simpa using hq)] at hsec
        rcases hcur with h | h
        · exact absurd h (by simp)
        · obtain ⟨q, t, hqt, hqual, htail⟩ := h
          refine ih ((c :: cs) ++ [pyStrip raw]) (Or.inr ⟨q, t ++ [pyStrip raw], ?_, hqual, ?_⟩) sec (by simpa using hsec)
          · rw [hqt]; simp
          · intro l hl
            rcases List.mem_append.mp hl with hl | hl
            · exact htail l hl
            · rcases List.mem_singleton.mp hl with rfl
              simpa using hq

theorem sectionsAux_flatten_nonempty : ∀ (lines current : List (List Char)),
    current ≠ [] →
    (sectionsAux lines current).flatten = current ++ lines.map pyStrip := by
  intro lines
  induction lines with
  | nil =>
    intro current hcur
    cases current with
    | nil => exact absurd rfl hcur
    | cons c cs => simp [sectionsAux]
  | cons raw rest ih =>
    intro current hcur
    cases current with
    | nil => exact absurd rfl hcur
    | cons c cs =>
      by_cases hq : isQualifying (pyStrip raw) = true
      · simp [sectionsAux, hq, ih [pyStrip raw] (by simp)]
      · simp only [sectionsAux, List.isEmpty_cons]
        rw [if_neg (by simpa using hq)]
        simp only [Bool.false_eq_true, if_false, List.cons_append]
        rw [ih (c :: (cs ++ [pyStrip raw])) (by simp)]
        simp

theorem sectionsAux_flatten_nil : ∀ (lines : List (List Char)),
    (sectionsAux lines []).flatten
      = (lines.dropWhile (fun raw => !isQualifying (pyStrip raw))).map pyStrip := by
  intro lines
  induction lines with
  | nil => simp [sectionsAux]
  | cons raw rest ih =>
    by_cases hq : isQualifying (pyStrip raw) = true
    · simp only [sectionsAux, List.isEmpty_nil, if_true, List.dropWhile_cons, hq,
        Bool.not_true, Bool.false_eq_true, if_false]
      rw [sectionsAux_flatten_nonempty rest [pyStrip raw] (by simp)]
      simp
    · simp only [sectionsAux, List.isEmpty_nil, if_true, List.dropWhile_cons]
      rw [if_neg (by simpa using hq)]
      have hq2 : (!isQualifying (pyStrip raw)) = true := by simp [hq]
      rw [hq2, if_pos rfl]
      exact ih

/-- Page scanning: when page `j` is the first page whose finder hits, the scan
returns page `j` with the first fragment there. -/
theorem findPageAux_first (s : List Char) (f : TextFragment) (fs : List TextFragment) :
    ∀ (pages : List PdfPage) (j idx : Nat) (pj : PdfPage),
      pages[j]? = some pj →
      pj.find TextFindParam.IgnoreCase s = f :: fs →
      (∀ i, i < j → ∀ pi, pages[i]? = some pi →
        pi.find TextFindParam.IgnoreCase s = []) →
      findPageAux s idx pages = some (idx + j, f) := by
  intro pages
  induction pages with
  | nil => intro j idx pj hj; simp at hj
  | cons p rest ih =>
    intro j idx pj hj hfind hlt
    cases j with
    | zero =>
      simp only [List.getElem?_cons_zero, Option.some.injEq] at hj
      subst hj
      simp [findPageAux, hfind]
    | succ j =>
      have h0 : p.find TextFindParam.IgnoreCase s = [] :=
        hlt 0 (by omega) p (by simp)
      have hrec := ih j (idx + 1) pj (by simpa using hj) hfind
        (fun i hi pi hpi => hlt (i + 1) (by omega) pi (by simpa using hpi))
      have heq : idx + 1 + j = idx + (j + 1) := by omega
      rw [heq] at hrec
      simp only [findPageAux, h0]
      exact hrec

theorem findPageAux_none (s : List Char) :
    ∀ (pages : List PdfPage) (idx : Nat),
      (∀ p ∈ pages, p.find TextFindParam.IgnoreCase s = []) →
      findPageAux s idx pages = none := by
  intro pages
  induction pages with
  | nil => intro idx _; simp [findPageAux]
  | cons p rest ih =>
    intro idx h
    have h0 := h p (by simp)
    simp only [findPageAux, h0]
    exact ih (idx + 1) (fun q hq => h q (by simp [hq]))

theorem toNat_sub_one (n : Nat) : ((n : Int) - 1).toNat = n - 1 := by omega

theorem firstUsablePara_spec (paras : List Paragraph) :
    ∀ (pre : List Nat) (n : Nat) (post : List Nat),
      (∀ m ∈ pre, usablePara paras m = false) →
      usablePara paras n = true →
      firstUsablePara paras (pre ++ n :: post)
        = some (((n : Int) - 1).toNat, paras.getD ((n : Int) - 1).toNat ⟨[]⟩) := by
  intro pre
  induction pre with
  | nil =>
    intro n post _ hn
    simp only [usablePara, Bool.and_eq_true, decide_eq_true_eq,
      Bool.not_eq_eq_eq_not, Bool.not_true] at hn
    obtain ⟨hb, hruns⟩ := hn
    simp only [List.nil_append, firstUsablePara]
    rw [if_pos hb, if_neg (by rw [hruns]; exact Bool.false_ne_true)]
  | cons m pre ih =>
    intro n post hpre hn
    have hm := hpre m (by simp)
    have htail : ∀ x ∈ pre, usablePara paras x = false :=
      fun x hx => hpre x (by simp [hx])
    simp only [List.cons_append, firstUsablePara]
    by_cases hb : 0 ≤ (m : Int) - 1 ∧ (m : Int) - 1 < (paras.length : Int)
    · rw [if_pos hb]
      have hempty : (paras.getD ((m : Int) - 1).toNat ⟨[]⟩).runs.isEmpty = true := by
        simp only [usablePara, Bool.and_eq_true, decide_eq_true_eq] at hm
        rcases Bool.and_eq_false_iff.mp hm with h | h
        · exact absurd (decide_eq_true hb) (by rw [h]; exact Bool.false_ne_true)
        · simpa using h
      rw [if_pos hempty]
      exact ih n post htail hn
    · rw [if_neg hb]
      exact ih n post htail hn

theorem mkHighlights_length (c : List Char) (frag : TextFragment) :
    (mkHighlights c frag).length = frag.Bounds.length := by
  simp [mkHighlights]

theorem mem_mkHighlights (c : List Char) (frag : TextFragment)
    (a : MarkupAnnot) (ha : a ∈ mkHighlights c frag) :
    a.text = truncate500 c ∧ a.author = "ADA".data ∧
      a.kind = MarkupKind.Highlight ∧ a.color = PdfColor.Yellow := by
  simp only [mkHighlights, List.mem_map] at ha
  obtain ⟨r, _, rfl⟩ := ha
  exact ⟨rfl, rfl, rfl, rfl⟩

/-- C3: for every input, `extract_line_numbers` returns a strictly ascending,
duplicate-free list; on "Lines 9-11 and line 53" it returns [9, 10, 11, 53]. -/
theorem extract_line_numbers_sorted_dedup_and_example :
    (∀ s : String, (extract_line_numbers s).Sorted (· < ·) ∧
      (extract_line_numbers s).Nodup) ∧
    extract_line_numbers "Lines 9-11 and line 53" = [9, 10, 11, 53] := by
  constructor
  · intro s
    have h := extractLineNumbersL_sorted s.data
    exact ⟨h, h.nodup⟩
  · decide

/-- C4 counterexample: on the reversed range "lines 12-10" the extractor does
not return the empty list. -/
theorem reversed_range_not_empty :
    extract_line_numbers "lines 12-10" ≠ [] := by decide

/-- C4 amended: the reversed range expansion itself is empty, but the
single-line pattern still matches the range start, so the result is the
singleton start value. -/
theorem reversed_range_yields_start :
    pyRange 12 10 = [] ∧
    extract_line_numbers "lines 12-10" = [12] ∧
    pyRange 30 20 = [] ∧
    extract_line_numbers "Lines 30-20" = [30] := by decide

/-- C5 counterexample: "line 0" extracts [0], whose element is not strictly
positive. -/
theorem extract_zero_allowed :
    extract_line_numbers "line 0" = [0] ∧
    ¬(∀ n ∈ extract_line_numbers "line 0", 0 < n) := by decide

/-- C5 amended: the extracted line-number list is always strictly ascending
and duplicate-free (an ordered set of distinct naturals); zero is not
excluded. -/
theorem extract_line_numbers_ordered_set (s : String) :
    (extract_line_numbers s).Sorted (· < ·) ∧ (extract_line_numbers s).Nodup := by
  have h := extractLineNumbersL_sorted s.data
  exact ⟨h, h.nodup⟩

/-- C5 amended witness: the ordered-set property at a concrete input mixing
a range and a duplicate single reference. -/
theorem extract_line_numbers_ordered_set_witness :
    (extract_line_numbers "Lines 2-4 and line 2").Sorted (· < ·) ∧
    (extract_line_numbers "Lines 2-4 and line 2").Nodup :=
  extract_line_numbers_ordered_set "Lines 2-4 and line 2"

/-- C6: the parser yields exactly one section per qualifying line (stripped,
non-empty, first character a digit or the line starting with Location:), each
section being one qualifying line followed by its non-qualifying continuation
lines; N qualifying lines give N sections, none give zero. -/
theorem parse_sections_one_per_qualifying_line (text : List Char) :
    (parseSectionsLines text).length
      = (splitOnNl text).countP (fun raw => isQualifying (pyStrip raw)) ∧
    (∀ sec ∈ parseSectionsLines text,
      ∃ q t, sec = q :: t ∧ isQualifying q = true ∧
        ∀ l ∈ t, isQualifying l = false) ∧
    (parse_comment_sections text).length
      = (splitOnNl text).countP (fun raw => isQualifying (pyStrip raw)) := by
  refine ⟨?_, ?_, ?_⟩
  · simpa [parseSectionsLines] using sectionsAux_length (splitOnNl text) []
  · exact fun sec hsec => sectionsAux_shape (splitOnNl text) [] (Or.inl rfl) sec hsec
  · rw [parse_comment_sections, List.length_map]
    simpa [parseSectionsLines] using sectionsAux_length (splitOnNl text) []

/-- C6 witness: a block with two qualifying lines yields two sections; the
first section is its qualifying line plus its continuation line. -/
theorem parse_sections_one_per_qualifying_line_witness :
    (parseSectionsLines ("intro\n1. first\nmore\n2. second".data)).length
      = (splitOnNl ("intro\n1. first\nmore\n2. second".data)).countP
          (fun raw => isQualifying (pyStrip raw)) ∧
    (∃ q t, ([ "1. first".data, "more".data ] : List (List Char)) = q :: t ∧
      isQualifying q = true ∧ ∀ l ∈ t, isQualifying l = false) := by
  have h := parse_sections_one_per_qualifying_line ("intro\n1. first\nmore\n2. second".data)
  exact ⟨h.1, h.2.1 [ "1. first".data, "more".data ] (by decide)⟩

/-- C10: every parsed section is non-empty and headed by a qualifying line;
the lines of the sections are exactly the stripped input lines from the first
qualifying line on (everything before is discarded); every stored line is a
stripped input line. -/
theorem parse_sections_structure (text : List Char) :
    (∀ sec ∈ parseSectionsLines text,
      ∃ q t, sec = q :: t ∧ isQualifying q = true) ∧
    (parseSectionsLines text).flatten
      = ((splitOnNl text).dropWhile (fun raw => !isQualifying (pyStrip raw))).map
          pyStrip ∧
    (∀ sec ∈ parseSectionsLines text, ∀ l ∈ sec,
      l ∈ (splitOnNl text).map pyStrip) := by
  refine ⟨?_, sectionsAux_flatten_nil (splitOnNl text), ?_⟩
  · intro sec hsec
    obtain ⟨q, t, h1, h2, _⟩ :=
      sectionsAux_shape (splitOnNl text) [] (Or.inl rfl) sec hsec
    exact ⟨q, t, h1, h2⟩
  · intro sec hsec l hl
    have hflat : l ∈ (parseSectionsLines text).flatten :=
      List.mem_flatten.mpr ⟨sec, hsec, hl⟩
    unfold parseSectionsLines at hflat
    rw [sectionsAux_flatten_nil] at hflat
    exact List.Sublist.mem hflat ((List.dropWhile_sublist _).map pyStrip)

/-- C10 witness: in a block whose first line does not qualify, the parsed
sections start at the qualifying line and the leading line occurs nowhere. -/
theorem parse_sections_structure_witness :
    (∃ q t, ([ "Location: target".data, "after".data ] : List (List Char))
      = q :: t ∧ isQualifying q = true) ∧
    (parseSectionsLines ("preamble\nLocation: target\nafter".data)).flatten
      = ((splitOnNl ("preamble\nLocation: target\nafter".data)).dropWhile
          (fun raw => !isQualifying (pyStrip raw))).map pyStrip := by
  have h := parse_sections_structure ("preamble\nLocation: target\nafter".data)
  exact ⟨h.1 [ "Location: target".data, "after".data ] (by decide), h.2.1⟩

/-- C8: in both paths only the first 50 parsed sections are considered;
sections past the 50th never affect the result, and exactly 50 are kept when
at least 50 are present. -/
theorem cap_fifty (pages : List PdfPage) (paras : List Paragraph)
    (sections extra : List (List Char)) (h : 50 ≤ sections.length) :
    pdfProcess pages (sections ++ extra) = pdfProcess pages sections ∧
    docxProcess paras (sections ++ extra) = docxProcess paras sections ∧
    ((sections ++ extra).take 50).length = 50 := by
  have htake : (sections ++ extra).take 50 = sections.take 50 :=
    List.take_append_of_le_length h
  refine ⟨?_, ?_, ?_⟩
  · simp [pdfProcess, htake]
  · simp [docxProcess, htake]
  · rw [htake, List.length_take]
    omega

/-- C8 witness: with 60 sections plus one more appended, the appended section
changes nothing and exactly 50 sections are considered. -/
theorem cap_fifty_witness :
    50 ≤ (List.replicate 60 ("1. x".data)).length ∧
    pdfProcess [] (List.replicate 60 ("1. x".data) ++ [ "51. y".data ])
      = pdfProcess [] (List.replicate 60 ("1. x".data)) ∧
    ((List.replicate 60 ("1. x".data) ++ [ "51. y".data ]).take 50).length
      = 50 := by
  have h : 50 ≤ (List.replicate 60 ("1. x".data)).length := by
    rw [List.length_replicate]
    omega
  have hc := cap_fifty [] [] (List.replicate 60 ("1. x".data))
    [ "51. y".data ] h
  exact ⟨h, hc.1, hc.2.2⟩

/-- C9: every annotation body, in both paths, is the comment truncated to its
first 500 characters when longer, and the full comment otherwise, with no
ellipsis. -/
theorem truncation_to_500 (c : List Char) (textLines : List (List Char))
    (pages : List PdfPage) (paras : List Paragraph) :
    (500 < c.length → truncate500 c = c.take 500) ∧
    (c.length ≤ 500 → truncate500 c = c) ∧
    (∀ j annots, processCommentPdf textLines pages c = some (j, annots) →
      ∀ a ∈ annots, a.text = truncate500 c) ∧
    (∀ i dc, processCommentDocx paras c = some (i, dc) →
      dc.text = truncate500 c) := by
  refine ⟨?_, ?_, ?_, ?_⟩
  · intro h
    simp only [truncate500, if_pos h]
  · intro h
    simp only [truncate500]
    rw [if_neg (by omega)]
  · intro j annots hsome a ha
    simp only [processCommentPdf] at hsome
    split at hsome
    · exact absurd hsome (by simp)
    · split at hsome
      · exact absurd hsome (by simp)
      · simp only [Option.some.injEq, Prod.mk.injEq] at hsome
        obtain ⟨h1, h2⟩ := hsome
        subst h2
        exact (mem_mkHighlights c _ a ha).1
  · intro i dc hsome
    simp only [processCommentDocx] at hsome
    split at hsome
    · exact absurd hsome (by simp)
    · split at hsome
      · exact absurd hsome (by simp)
      · simp only [Option.some.injEq, Prod.mk.injEq] at hsome
        obtain ⟨h1, h2⟩ := hsome
        subst h2
        rfl

/-- C9 witness: a 600-character comment body is truncated to exactly its
first 500 characters. -/
theorem truncation_to_500_witness :
    500 < (List.replicate 600 'a').length ∧
    truncate500 (List.replicate 600 'a') = (List.replicate 600 'a').take 500 := by
  have h : 500 < (List.replicate 600 'a').length := by
    rw [List.length_replicate]
    omega
  exact ⟨h, (truncation_to_500 (List.replicate 600 'a') [] [] []).1 h⟩

/-- C1: PDF path, one record with usable search text: pages are scanned in
ascending order, the first page with at least one case-insensitive hit wins
and scanning stops there; the first fragment on that page produces exactly
one highlight per bounding region, all with the truncated body, the fixed
author tag, highlight kind and yellow colour; the counter rises by one. -/
theorem pdf_record_placed_on_first_matching_page
    (textLines : List (List Char)) (pages : List PdfPage)
    (c s : List Char) (j : Nat) (pj : PdfPage) (f : TextFragment)
    (fs : List TextFragment) (rest : List (List Char))
    (hs : searchTextOf textLines c = some s)
    (hpj : pages[j]? = some pj)
    (hfind : pj.find TextFindParam.IgnoreCase s = f :: fs)
    (hbefore : ∀ i, i < j → ∀ pi, pages[i]? = some pi →
      pi.find TextFindParam.IgnoreCase s = []) :
    processCommentPdf textLines pages c = some (j, mkHighlights c f) ∧
    (mkHighlights c f).length = f.Bounds.length ∧
    (∀ a ∈ mkHighlights c f, a.text = truncate500 c ∧ a.author = "ADA".data ∧
      a.kind = MarkupKind.Highlight ∧ a.color = PdfColor.Yellow) ∧
    pdfGo textLines pages (c :: rest)
      = (j, mkHighlights c f) :: pdfGo textLines pages rest := by
  have hfp : findPage pages s = some (j, f) := by
    have h := findPageAux_first s f fs pages j 0 pj hpj hfind hbefore
    simpa [findPage] using h
  have hproc : processCommentPdf textLines pages c = some (j, mkHighlights c f) := by
    simp only [processCommentPdf, hs, hfp]
  refine ⟨hproc, mkHighlights_length c f, fun a ha => mem_mkHighlights c f a ha, ?_⟩
  simp only [pdfGo, hproc]

/-- C1 witness: in a two-page document where only the second page matches,
the record is placed on page index 1 with one highlight per bounding region
of the first fragment. -/
theorem pdf_record_placed_witness :
    searchTextOf (buildTextLines wPages) wComment = some wSearch ∧
    processCommentPdf (buildTextLines wPages) wPages wComment
      = some (1, mkHighlights wComment { Bounds := [3, 4] }) ∧
    (mkHighlights wComment { Bounds := [3, 4] }).length = 2 := by
  have hbefore : ∀ i, i < 1 → ∀ pi, wPages[i]? = some pi →
      pi.find TextFindParam.IgnoreCase wSearch = [] := by
    intro i hi pi hpi
    have hi0 : i = 0 := by omega
    subst hi0
    rw [show wPages[0]? = some wPage0 from rfl] at hpi
    cases hpi
    rfl
  have h := pdf_record_placed_on_first_matching_page (buildTextLines wPages)
    wPages wComment wSearch 1 wPage1 { Bounds := [3, 4] } [] []
    (by decide) (by rfl) (by rfl) hbefore
  refine ⟨by decide, h.1, ?_⟩
  rw [mkHighlights_length]
  rfl

/-- C2: an unlocatable record — no line numbers, no in-bounds line number,
first in-bounds target line stripped to under 3 characters, zero hits on
every page, or no usable paragraph — is skipped: its processing yields none,
no annotation is attached for it, and the loop continues with the next
record. -/
theorem unlocatable_record_skipped (textLines : List (List Char))
    (pages : List PdfPage) (paras : List Paragraph) (c : List Char)
    (rest : List (List Char)) :
    (extractLineNumbersL c = [] → processCommentPdf textLines pages c = none) ∧
    ((∀ n ∈ extractLineNumbersL c, ¬(1 ≤ n ∧ n ≤ textLines.length)) →
      processCommentPdf textLines pages c = none) ∧
    (∀ t ts, targetLinesOf textLines (extractLineNumbersL c) = t :: ts →
      (pyStrip t).length < 3 → processCommentPdf textLines pages c = none) ∧
    (∀ s, searchTextOf textLines c = some s →
      (∀ p ∈ pages, p.find TextFindParam.IgnoreCase s = []) →
      processCommentPdf textLines pages c = none) ∧
    (processCommentPdf textLines pages c = none →
      pdfGo textLines pages (c :: rest) = pdfGo textLines pages rest) ∧
    (extractLineNumbersL c = [] → processCommentDocx paras c = none) ∧
    (firstUsablePara paras (extractLineNumbersL c) = none →
      processCommentDocx paras c = none) ∧
    (processCommentDocx paras c = none →
      docxGo paras (c :: rest) = docxGo paras rest) := by
  refine ⟨?_, ?_, ?_, ?_, ?_, ?_, ?_, ?_⟩
  · intro h
    simp [processCommentPdf, searchTextOf, h]
  · intro h
    have ht : targetLinesOf textLines (extractLineNumbersL c) = [] := by
      rw [targetLinesOf, List.filterMap_eq_nil_iff]
      intro n hn
      rw [if_neg (h n hn)]
    simp [processCommentPdf, searchTextOf, ht, ite_self]
  · intro t ts h hlen
    simp [processCommentPdf, searchTextOf, h, hlen, ite_self]
  · intro s hs hall
    have hfp : findPage pages s = none := findPageAux_none s pages 0 hall
    simp [processCommentPdf, hs, hfp]
  · intro h
    simp only [pdfGo, h]
  · intro h
    simp [processCommentDocx, h]
  · intro h
    simp [processCommentDocx, h, ite_self]
  · intro h
    simp only [docxGo, h]

/-- C2 witness: a record with no recognised line reference is skipped in both
paths and contributes nothing to the loop output. -/
theorem unlocatable_record_skipped_witness :
    extractLineNumbersL wSkip = [] ∧
    processCommentPdf [] [] wSkip = none ∧
    pdfGo [] [] [ wSkip ] = [] ∧
    processCommentDocx [] wSkip = none := by
  have h := unlocatable_record_skipped [] [] [] wSkip []
  have h0 : extractLineNumbersL wSkip = [] := by decide
  have h1 := h.1 h0
  have h5 := h.2.2.2.2.1 h1
  have h6 := h.2.2.2.2.2.1 h0
  refine ⟨h0, h1, ?_, h6⟩
  rw [h5]
  rfl

/-- C7: word-processor path: the line numbers of the record (an ascending list)
are scanned in order; the first whose zero-based index (line number minus
one) is within the paragraph count and whose paragraph has at least one run
anchors the comment — truncated body, author tag ADA — to the runs of that
paragraph, and later line numbers are not considered. -/
theorem docx_comment_anchored_at_first_usable (paras : List Paragraph)
    (c : List Char) (pre post : List Nat) (n : Nat)
    (hnums : extractLineNumbersL c = pre ++ n :: post)
    (hpre : ∀ m ∈ pre, usablePara paras m = false)
    (hn : usablePara paras n = true) :
    (extractLineNumbersL c).Sorted (· < ·) ∧
    1 ≤ n ∧
    processCommentDocx paras c
      = some (n - 1,
          { runs := (paras.getD (n - 1) ⟨[]⟩).runs
            text := truncate500 c
            author := "ADA".data
            initials := "ADA".data }) := by
  have hsorted := extractLineNumbersL_sorted c
  have h1 : 1 ≤ n := by
    simp only [usablePara, Bool.and_eq_true, decide_eq_true_eq] at hn
    omega
  have hfu := firstUsablePara_spec paras pre n post hpre hn
  have htn : ((n : Int) - 1).toNat = n - 1 := toNat_sub_one n
  rw [htn] at hfu
  refine ⟨hsorted, h1, ?_⟩
  simp [processCommentDocx, hnums, hfu]

/-- C7 witness: a record with line_numbers = [5] in a ten-paragraph document
whose paragraphs all have runs anchors the comment at zero-based paragraph
index 4. -/
theorem docx_comment_anchored_witness :
    extractLineNumbersL wLoc5 = [5] ∧
    usablePara wParas10 5 = true ∧
    processCommentDocx wParas10 wLoc5
      = some (4, { runs := [0]
                   text := truncate500 wLoc5
                   author := "ADA".data
                   initials := "ADA".data }) := by
  have h := docx_comment_anchored_at_first_usable wParas10 wLoc5 [] [] 5
    (by decide) (by simp) (by decide)
  exact ⟨by decide, by decide, h.2.2⟩
